import Mathlib

/-!
# Verification of the quasm two-pass assembler

A shallow embedding of the assembler pipeline from `src/main.rs`:
line classification (`parse_line`, `parse_arg`), address assignment
(`lines_with_addresses`), label-table construction (`find_labels`),
argument resolution (`resolve_arg`, `resolve_line`, `resolve`) and
instruction encoding (`encode_opcode`, `encode_instruction`).

Machine integers are modelled as `Int` with explicit wrapping where the
Rust code performs 32-bit arithmetic (`wrap32`); panics (unknown opcode,
`HashMap` index on a missing label) are modelled as `Except CompileError`.
-/

namespace Quasm

/-- Source `enum Argument`: a literal `i16`, a label reference
(token kept verbatim, `:` sigil included), or no argument. -/
inductive Argument where
  | integer (value : Int)
  | label (name : String)
  | none
deriving DecidableEq, Repr

/-- Source `enum Line`: an instruction line (opcode and raw
argument) or a label-definition line (full line kept as the name). -/
inductive Line where
  | instruction (opcode : String) (arg : Argument)
  | label (name : String)
deriving DecidableEq, Repr

/-- Source `struct Instruction`: opcode with resolved argument. -/
structure Instruction where
  opcode : String
  arg : Int
deriving DecidableEq, Repr

/-- The two panics the pipeline can raise: `panic!("Unrecognised opcode")`
in `encode_opcode`, and the `HashMap` index panic in `resolve_arg` when a
label reference has no matching definition. -/
inductive CompileError where
  | unknownOpcode (name : String)
  | undefinedLabel (name : String)
deriving DecidableEq, Repr

instance decEqExcept {ε α : Type} [DecidableEq ε] [DecidableEq α] : DecidableEq (Except ε α) :=
  fun a b =>
    match a, b with
    | Except.error e1, Except.error e2 =>
      if h : e1 = e2 then isTrue (congrArg Except.error h)
      else isFalse (fun hh => h (Except.error.inj hh))
    | Except.ok x, Except.ok y =>
      if h : x = y then isTrue (congrArg Except.ok h)
      else isFalse (fun hh => h (Except.ok.inj hh))
    | Except.error _, Except.ok _ => isFalse (fun hh => Except.noConfusion hh)
    | Except.ok _, Except.error _ => isFalse (fun hh => Except.noConfusion hh)

/-- Model of Rust `str::split(" ")` on the underlying characters: split on every
space character; always yields at least one (possibly empty) segment. -/
def splitSpaces : List Char → List (List Char)
  | [] => [[]]
  | c :: rest =>
    if c = ' ' then [] :: splitSpaces rest
    else
      match splitSpaces rest with
      | [] => [[c]]
      | t :: ts => (c :: t) :: ts

/-- Model of Rust `line.starts_with(":")`. -/
def starts_with_colon (s : String) : Bool :=
  match s.data with
  | ':' :: _ => true
  | _ => false

/-- Value of a list of decimal digit characters. -/
def digitsToNat (cs : List Char) : Nat :=
  cs.foldl (fun a c => a * 10 + (c.toNat - 48)) 0

/-- One or more ASCII digits, else failure. -/
def parseDigits (cs : List Char) : Option Nat :=
  if cs ≠ [] ∧ cs.all (fun c => c.isDigit) then some (digitsToNat cs) else Option.none

/-- Model of Rust `s.parse::<i16>()`: an optional `+`/`-` sign followed by one or
more ASCII digits, with the value required to fit in `i16`
(`-32768 ≤ v ≤ 32767`); anything else fails. -/
def parse_i16 (s : String) : Option Int :=
  match s.data with
  | '+' :: rest =>
    (parseDigits rest).bind (fun n => if n ≤ 32767 then some (n : Int) else Option.none)
  | '-' :: rest =>
    (parseDigits rest).bind (fun n => if n ≤ 32768 then some (-(n : Int)) else Option.none)
  | cs =>
    (parseDigits cs).bind (fun n => if n ≤ 32767 then some (n : Int) else Option.none)

/-- Source `parse_arg`: a missing token is `Argument.none`; a
token starting with `:` is a label reference (token kept whole); otherwise
the token is parsed as an `i16`, a parse failure falling back to
`Argument.none`. -/
def parse_arg (part : Option String) : Argument :=
  match part with
  | Option.none => Argument.none
  | some s =>
    if starts_with_colon s then Argument.label s
    else
      match parse_i16 s with
      | some value => Argument.integer value
      | Option.none => Argument.none

/-- Source `parse_line`: a line starting with `:` is a label
definition named by the whole line; otherwise the line is split on every
space, the first segment is the opcode and the second segment (if any) is
the argument token. (`splitSpaces` never returns `[]`; the `[]` branch is
unreachable.) -/
def parse_line (line : String) : Line :=
  if starts_with_colon line then Line.label line
  else
    match splitSpaces line.data with
    | [] => Line.instruction "" (parse_arg Option.none)
    | opcode :: rest => Line.instruction (String.mk opcode) (parse_arg (rest.head?.map String.mk))

/-- Whether a `Line` is an instruction (the `is_instruction` test in
`lines_with_addresses`). -/
def is_instruction : Line → Bool
  | Line.instruction _ _ => true
  | _ => false

/-- Two's-complement wrap of an integer into the `i16` range: the effect
of the wrapping 16-bit arithmetic the source performs on addresses and
displacements (the spec notes that overflow is silently truncated or
wrapped by the underlying integer representation). -/
def wrap16 (x : Int) : Int := (x + 32768) % 65536 - 32768

/-- The loop body of `lines_with_addresses`, with the running counter made
explicit: each line is paired with the current counter, which is bumped —
in the wrapping `i16` arithmetic of the source counter — after every
instruction line. -/
def lines_with_addresses_from : List Line → Int → List (Line × Int)
  | [], _ => []
  | line :: rest, address =>
    (line, address) ::
      lines_with_addresses_from rest
        (if is_instruction line then wrap16 (address + 1) else address)

/-- Source `lines_with_addresses`: the counter starts at 0. -/
def lines_with_addresses (lines : List Line) : List (Line × Int) :=
  lines_with_addresses_from lines 0

/-- Model of `HashMap::insert`: the new binding shadows any earlier one. -/
def hm_insert (m : List (String × Int)) (k : String) (v : Int) : List (String × Int) :=
  (k, v) :: m

/-- Model of `HashMap` lookup: the most recent binding for the key, if any. -/
def hm_get (m : List (String × Int)) (k : String) : Option Int :=
  match m with
  | [] => Option.none
  | (k2, v) :: rest => if k2 = k then some v else hm_get rest k

/-- Source `find_labels`: fold over the addressed lines, inserting
`(name, address)` for every label-definition line. -/
def find_labels (lines : List (Line × Int)) : List (String × Int) :=
  lines.foldl
    (fun labels p =>
      match p with
      | (Line.label name, address) => hm_insert labels name address
      | _ => labels)
    []

/-- Source `resolve_arg`: a literal is kept unchanged, a label
reference becomes `table[name] - (address + 1)` computed in the wrapping
`i16` arithmetic of the source (a missing key is the `HashMap` index
panic), and a missing argument resolves to 0. -/
def resolve_arg (label_addresses : List (String × Int)) (address : Int) (argument : Argument) :
    Except CompileError Int :=
  match argument with
  | Argument.integer value => Except.ok value
  | Argument.label name =>
    match hm_get label_addresses name with
    | some a => Except.ok (wrap16 (a - wrap16 (address + 1)))
    | Option.none => Except.error (CompileError.undefinedLabel name)
  | Argument.none => Except.ok 0

/-- Source `resolve_line`: instruction lines are resolved, label
lines are dropped (`filter_map`). -/
def resolve_line (label_addresses : List (String × Int)) (p : Line × Int) :
    Except CompileError (Option Instruction) :=
  match p with
  | (Line.instruction opcode arg, address) =>
    match resolve_arg label_addresses address arg with
    | Except.ok v => Except.ok (some ⟨opcode, v⟩)
    | Except.error e => Except.error e
  | _ => Except.ok Option.none

/-- The `filter_map` collection in `resolve`, stopping at the first panic. -/
def resolve_lines (label_addresses : List (String × Int)) :
    List (Line × Int) → Except CompileError (List Instruction)
  | [] => Except.ok []
  | p :: rest =>
    match resolve_line label_addresses p with
    | Except.error e => Except.error e
    | Except.ok Option.none => resolve_lines label_addresses rest
    | Except.ok (some instr) =>
      match resolve_lines label_addresses rest with
      | Except.error e => Except.error e
      | Except.ok instrs => Except.ok (instr :: instrs)

/-- Source `resolve`: assign addresses, build the label table,
then resolve every line against it. -/
def resolve (lines : List Line) : Except CompileError (List Instruction) :=
  resolve_lines (find_labels (lines_with_addresses lines)) (lines_with_addresses lines)

/-- The nine opcode names of the fixed table. -/
def opcode_names : List String :=
  ["const", "pop", "dup", "swap", "cmp", "add", "mul", "jmp", "jle"]

/-- Source `encode_opcode`: the fixed 9-entry opcode table; any
other name is the `panic!("Unrecognised opcode")`. -/
def encode_opcode (name : String) : Except CompileError Int :=
  if name = "const" then Except.ok 0
  else if name = "pop" then Except.ok 1
  else if name = "dup" then Except.ok 2
  else if name = "swap" then Except.ok 3
  else if name = "cmp" then Except.ok 4
  else if name = "add" then Except.ok 5
  else if name = "mul" then Except.ok 6
  else if name = "jmp" then Except.ok 7
  else if name = "jle" then Except.ok 8
  else Except.error (CompileError.unknownOpcode name)

/-- Two's-complement wrap of an integer into the `i32` range. -/
def wrap32 (x : Int) : Int := (x + 2147483648) % 4294967296 - 2147483648

/-- Source `encode_instruction`: `bytecode + ((arg as i32) << 16)`
in `i32` arithmetic (the `i16` argument is sign-extended to `i32`, the
shift wraps modulo `2^32`). -/
def encode_instruction (instruction : Instruction) : Except CompileError Int :=
  match encode_opcode instruction.opcode with
  | Except.error e => Except.error e
  | Except.ok bytecode => Except.ok (wrap32 (bytecode + wrap32 (instruction.arg * 65536)))

/-- Encoding of the whole resolved program (`instructions.map(encode_instruction)`
collected by `write_lines`), stopping at the first panic. -/
def encode_all : List Instruction → Except CompileError (List Int)
  | [] => Except.ok []
  | i :: rest =>
    match encode_instruction i with
    | Except.error e => Except.error e
    | Except.ok w =>
      match encode_all rest with
      | Except.error e => Except.error e
      | Except.ok ws => Except.ok (w :: ws)

/-- The compile pipeline on classified source lines: parse, resolve,
encode. -/
def compile (source : List String) : Except CompileError (List Int) :=
  match resolve (source.map parse_line) with
  | Except.error e => Except.error e
  | Except.ok instructions => encode_all instructions

/-- The words actually handed to the binary writer: `write_lines` collects
the whole encoded vector before writing a single byte, so a failing run
writes nothing. -/
def written_words (source : List String) : List Int :=
  match compile source with
  | Except.ok ws => ws
  | Except.error _ => []

/-- Number of instruction lines. -/
def count_instructions (lines : List Line) : Nat :=
  (lines.filter (fun l => is_instruction l)).length

/-- The opcodes of the instruction lines, in source order. -/
def opcodes_in_order (lines : List Line) : List String :=
  lines.filterMap
    (fun l =>
      match l with
      | Line.instruction op _ => some op
      | _ => Option.none)

/-- The unsigned 32-bit view (two's-complement bit pattern) of an integer. -/
def toBits32 (x : Int) : Nat := (x % 4294967296).toNat

/-- The address of the last label definition with the given name, if any
(specification-side description of `HashMap` overwrite semantics). -/
def last_label_address : List (Line × Int) → String → Option Int
  | [], _ => Option.none
  | (line, address) :: rest, name =>
    match last_label_address rest name with
    | some r => some r
    | Option.none =>
      match line with
      | Line.label n => if n = name then some address else Option.none
      | _ => Option.none

/-- The classifier as claim C9 words it: at most two tokens, the first up
to the first space, and the ENTIRE remainder of the line after the first
space as the single argument token (specification-side definition, for
comparison with `parse_line`). -/
def parse_line_claim (line : String) : Line :=
  if starts_with_colon line then Line.label line
  else
    let cs := line.data
    let tok1 := cs.takeWhile (fun c => c != ' ')
    if tok1.length = cs.length then Line.instruction (String.mk tok1) (parse_arg Option.none)
    else Line.instruction (String.mk tok1)
      (parse_arg (some (String.mk (cs.drop (tok1.length + 1)))))

/-! ## Helper lemmas -/

theorem count_instructions_cons (l : Line) (ls : List Line) :
    count_instructions (l :: ls) = (if is_instruction l then 1 else 0) + count_instructions ls := by
  by_cases h : is_instruction l <;> simp [count_instructions, List.filter_cons, h] <;> omega

theorem lwa_from_fst (lines : List Line) (a : Int) :
    (lines_with_addresses_from lines a).map Prod.fst = lines := by
  induction lines generalizing a with
  | nil => rfl
  | cons l rest ih => simp [lines_with_addresses_from, ih]

theorem lwa_from_length (lines : List Line) (a : Int) :
    (lines_with_addresses_from lines a).length = lines.length := by
  induction lines generalizing a with
  | nil => rfl
  | cons l rest ih => simp [lines_with_addresses_from, ih]

theorem wrap16_eq_self (x : Int) (h1 : -32768 ≤ x) (h2 : x ≤ 32767) : wrap16 x = x := by
  simp only [wrap16]
  omega

theorem wrap16_wrap16_add (x y : Int) : wrap16 (wrap16 x + y) = wrap16 (x + y) := by
  simp only [wrap16]
  omega

theorem count_instructions_take_le (lines : List Line) (i : Nat) :
    count_instructions (lines.take i) ≤ count_instructions lines :=
  ((List.take_sublist i lines).filter _).length_le

theorem lwa_from_snd (lines : List Line) (a : Int) (i : Nat)
    (h : i < (lines_with_addresses_from lines a).length) :
    ((lines_with_addresses_from lines a).get ⟨i, h⟩).snd
      = if count_instructions (lines.take i) = 0 then a
        else wrap16 (a + (count_instructions (lines.take i) : Int)) := by
  induction lines generalizing a i with
  | nil => simp [lines_with_addresses_from] at h
  | cons l rest ih =>
    cases i with
    | zero => simp [lines_with_addresses_from, count_instructions]
    | succ i =>
      have h' : i < (lines_with_addresses_from rest
          (if is_instruction l then wrap16 (a + 1) else a)).length := by
        simp only [lines_with_addresses_from, List.length_cons] at h
        omega
      have hrec := ih (if is_instruction l then wrap16 (a + 1) else a) i h'
      simp only [lines_with_addresses_from, List.get_cons_succ, List.take_succ_cons,
        count_instructions_cons] at *
      rw [hrec]
      by_cases hins : is_instruction l
      · simp only [hins, if_true]
        by_cases hc : count_instructions (rest.take i) = 0
        · simp [hc]
        · have hne : ¬(1 + count_instructions (rest.take i) = 0) := by omega
          simp only [hc, if_false, hne]
          rw [wrap16_wrap16_add]
          congr 1
          push_cast
          ring
      · simp only [hins, if_false]
        by_cases hc : count_instructions (rest.take i) = 0 <;> simp [hc]

theorem resolve_arg_error_form (labels : List (String × Int)) (address : Int) (arg : Argument)
    (e : CompileError) (h : resolve_arg labels address arg = Except.error e) :
    ∃ n, arg = Argument.label n ∧ hm_get labels n = Option.none
      ∧ e = CompileError.undefinedLabel n := by
  cases arg with
  | integer v => simp [resolve_arg] at h
  | label n =>
    refine ⟨n, rfl, ?_⟩
    cases hg : hm_get labels n <;> simp [resolve_arg, hg] at h <;> simp [h]
  | none => simp [resolve_arg] at h

theorem resolve_line_error_form (labels : List (String × Int)) (p : Line × Int)
    (e : CompileError) (h : resolve_line labels p = Except.error e) :
    ∃ n, e = CompileError.undefinedLabel n := by
  obtain ⟨line, address⟩ := p
  cases line with
  | instruction op arg =>
    cases ha : resolve_arg labels address arg with
    | ok v => simp [resolve_line, ha] at h
    | error e2 =>
      simp [resolve_line, ha] at h
      obtain ⟨n, _, _, hn⟩ := resolve_arg_error_form labels address arg e2 ha
      exact ⟨n, h ▸ hn⟩
  | label n => simp [resolve_line] at h

theorem resolve_lines_error_form (labels : List (String × Int)) (lwa : List (Line × Int))
    (e : CompileError) (h : resolve_lines labels lwa = Except.error e) :
    ∃ n, e = CompileError.undefinedLabel n := by
  induction lwa with
  | nil => simp [resolve_lines] at h
  | cons p rest ih =>
    cases hp : resolve_line labels p with
    | error e2 =>
      simp [resolve_lines, hp] at h
      exact h ▸ resolve_line_error_form labels p e2 hp
    | ok r =>
      cases r with
      | none =>
        simp [resolve_lines, hp] at h
        exact ih h
      | some instr =>
        cases hr : resolve_lines labels rest with
        | error e3 =>
          simp [resolve_lines, hp, hr] at h
          exact ih (h ▸ hr)
        | ok instrs => simp [resolve_lines, hp, hr] at h

theorem resolve_lines_error_of_mem (labels : List (String × Int)) (lwa : List (Line × Int))
    (p : Line × Int) (e : CompileError) (hmem : p ∈ lwa)
    (herr : resolve_line labels p = Except.error e) :
    ∃ e2, resolve_lines labels lwa = Except.error e2 := by
  induction lwa with
  | nil => simp at hmem
  | cons q rest ih =>
    rcases List.mem_cons.mp hmem with hq | hq
    · subst hq
      exact ⟨e, by simp [resolve_lines, herr]⟩
    · cases hp : resolve_line labels q with
      | error e2 => exact ⟨e2, by simp [resolve_lines, hp]⟩
      | ok r =>
        obtain ⟨e2, he2⟩ := ih hq
        cases r with
        | none => exact ⟨e2, by simp [resolve_lines, hp, he2]⟩
        | some instr => exact ⟨e2, by simp [resolve_lines, hp, he2]⟩

theorem resolve_lines_opcodes (labels : List (String × Int)) (lwa : List (Line × Int))
    (instrs : List Instruction) (h : resolve_lines labels lwa = Except.ok instrs) :
    instrs.map Instruction.opcode = opcodes_in_order (lwa.map Prod.fst) := by
  induction lwa generalizing instrs with
  | nil =>
    simp [resolve_lines] at h
    simp [← h, opcodes_in_order]
  | cons p rest ih =>
    obtain ⟨line, address⟩ := p
    cases line with
    | instruction op arg =>
      cases ha : resolve_arg labels address arg with
      | error e2 => simp [resolve_lines, resolve_line, ha] at h
      | ok v =>
        cases hr : resolve_lines labels rest with
        | error e3 => simp [resolve_lines, resolve_line, ha, hr] at h
        | ok instrs2 =>
          simp [resolve_lines, resolve_line, ha, hr] at h
          simp [← h, opcodes_in_order, ih instrs2 hr]
    | label n =>
      simp [resolve_lines, resolve_line] at h
      simp [opcodes_in_order, ih instrs h]

theorem opcodes_in_order_length (lines : List Line) :
    (opcodes_in_order lines).length = count_instructions lines := by
  induction lines with
  | nil => rfl
  | cons l rest ih =>
    cases l <;> simp [opcodes_in_order, count_instructions, List.filter_cons,
      is_instruction] at * <;> omega

theorem opcodes_in_order_mem (lines : List Line) (op : String) (arg : Argument)
    (h : Line.instruction op arg ∈ lines) : op ∈ opcodes_in_order lines := by
  induction lines with
  | nil => simp at h
  | cons l rest ih =>
    rcases List.mem_cons.mp h with hl | hl
    · simp [← hl, opcodes_in_order]
    · cases l <;> simp [opcodes_in_order] at * <;> tauto

theorem encode_all_length (instrs : List Instruction) (ws : List Int)
    (h : encode_all instrs = Except.ok ws) : ws.length = instrs.length := by
  induction instrs generalizing ws with
  | nil => simp [encode_all] at h; simp [← h]
  | cons i rest ih =>
    cases he : encode_instruction i with
    | error e => simp [encode_all, he] at h
    | ok w =>
      cases hr : encode_all rest with
      | error e => simp [encode_all, he, hr] at h
      | ok ws2 =>
        simp [encode_all, he, hr] at h
        simp [← h, ih ws2 hr]

theorem encode_opcode_error_of_not_mem (name : String) (h : name ∉ opcode_names) :
    encode_opcode name = Except.error (CompileError.unknownOpcode name) := by
  simp [opcode_names] at h
  obtain ⟨h1, h2, h3, h4, h5, h6, h7, h8, h9⟩ := h
  simp [encode_opcode, h1, h2, h3, h4, h5, h6, h7, h8, h9]

theorem encode_opcode_error_form (name : String) (e : CompileError)
    (h : encode_opcode name = Except.error e) : e = CompileError.unknownOpcode name := by
  simp only [encode_opcode] at h
  repeat' split at h
  all_goals simp_all

theorem encode_all_unknown (instrs : List Instruction) (instr : Instruction)
    (hmem : instr ∈ instrs) (hbad : instr.opcode ∉ opcode_names) :
    ∃ n, encode_all instrs = Except.error (CompileError.unknownOpcode n) := by
  induction instrs with
  | nil => simp at hmem
  | cons i rest ih =>
    cases he : encode_instruction i with
    | error e =>
      have : ∃ n, e = CompileError.unknownOpcode n := by
        simp only [encode_instruction] at he
        cases ho : encode_opcode i.opcode with
        | error e2 =>
          rw [ho] at he
          exact ⟨i.opcode, by simp at he; exact he ▸ encode_opcode_error_form _ _ ho⟩
        | ok c => rw [ho] at he; simp at he
      obtain ⟨n, rfl⟩ := this
      exact ⟨n, by simp [encode_all, he]⟩
    | ok w =>
      rcases List.mem_cons.mp hmem with hl | hl
      · exfalso
        subst hl
        simp [encode_instruction, encode_opcode_error_of_not_mem instr.opcode hbad] at he
      · obtain ⟨n, hn⟩ := ih hl
        exact ⟨n, by simp [encode_all, he, hn]⟩

theorem hm_get_foldl (lwa : List (Line × Int)) (acc : List (String × Int)) (name : String) :
    hm_get (lwa.foldl
      (fun labels p =>
        match p with
        | (Line.label n, address) => hm_insert labels n address
        | _ => labels) acc) name
      = match last_label_address lwa name with
        | some r => some r
        | Option.none => hm_get acc name := by
  induction lwa generalizing acc with
  | nil => simp [last_label_address]
  | cons p rest ih =>
    obtain ⟨line, address⟩ := p
    cases line with
    | instruction op arg =>
      simp only [List.foldl_cons, last_label_address]
      rw [ih]
      cases last_label_address rest name <;> simp
    | label n =>
      simp only [List.foldl_cons, last_label_address]
      rw [ih]
      cases hr : last_label_address rest name with
      | some r => simp
      | none =>
        simp only [hm_insert, hm_get]
        by_cases hn : n = name <;> simp [hn]

theorem hm_get_find_labels (lwa : List (Line × Int)) (name : String) :
    hm_get (find_labels lwa) name = last_label_address lwa name := by
  rw [find_labels, hm_get_foldl]
  cases last_label_address lwa name <;> simp [hm_get]

theorem lla_append (xs ys : List (Line × Int)) (name : String) :
    last_label_address (xs ++ ys) name
      = match last_label_address ys name with
        | some r => some r
        | Option.none => last_label_address xs name := by
  induction xs with
  | nil => simp [last_label_address]; cases last_label_address ys name <;> simp
  | cons p rest ih =>
    obtain ⟨line, address⟩ := p
    cases hys : last_label_address ys name <;>
      cases hrest : last_label_address rest name <;>
      simp [List.cons_append, last_label_address, ih, hys, hrest]

theorem encode_word_arith (c v : Int) (hc0 : 0 ≤ c) (hc1 : c < 65536)
    (h1 : -32768 ≤ v) (h2 : v < 32768) :
    toBits32 (wrap32 (c + wrap32 (v * 65536)))
      = Nat.lor (toBits32 c) ((toBits32 v <<< 16) % 4294967296)
    ∧ toBits32 (wrap32 (c + wrap32 (v * 65536))) % 65536 = toBits32 c := by
  have hA : toBits32 (wrap32 (c + wrap32 (v * 65536)))
      = c.toNat + (v % 65536).toNat * 65536 := by
    simp only [toBits32, wrap32]
    omega
  have hB : toBits32 c = c.toNat := by simp only [toBits32]; omega
  have hC : (toBits32 v <<< 16) % 4294967296 = (v % 65536).toNat * 65536 := by
    simp only [toBits32, Nat.shiftLeft_eq]
    norm_num
    omega
  have hD : Nat.lor c.toNat ((v % 65536).toNat * 65536)
      = c.toNat + (v % 65536).toNat * 65536 := by
    have hlt : c.toNat < 2 ^ 16 := by omega
    have hor := Nat.mul_add_lt_is_or hlt ((v % 65536).toNat)
    have hcomm : (2 ^ 16 * (v % 65536).toNat) ||| c.toNat
        = c.toNat ||| (2 ^ 16 * (v % 65536).toNat) := Nat.lor_comm _ _
    show c.toNat ||| ((v % 65536).toNat * 65536) = c.toNat + (v % 65536).toNat * 65536
    rw [show (v % 65536).toNat * 65536 = 2 ^ 16 * (v % 65536).toNat by ring, ← hcomm, ← hor]
    ring
  constructor
  · rw [hA, hB, hC, hD]
  · rw [hA, hB]; omega

/-! ## Claim theorems -/

/-- C1: for every opcode name in the fixed 9-entry table (const=0, pop=1,
dup=2, swap=3, cmp=4, add=5, mul=6, jmp=7, jle=8) with code `c` and every
resolved signed 16-bit argument `v`, the encoder succeeds and returns the
32-bit word `c | (v << 16)`: `v` is sign-extended to 32 bits before the
shift, so a negative argument occupies the upper 16 bits of the word in
two's-complement form, and the low 16 bits hold the opcode code. -/
theorem encoder_packs_opcode_and_argument (name : String) (c v : Int)
    (htab : (name, c) ∈ [("const", (0 : Int)), ("pop", 1), ("dup", 2), ("swap", 3),
      ("cmp", 4), ("add", 5), ("mul", 6), ("jmp", 7), ("jle", 8)])
    (h1 : -32768 ≤ v) (h2 : v < 32768) :
    ∃ w, encode_instruction ⟨name, v⟩ = Except.ok w
      ∧ toBits32 w = Nat.lor (toBits32 c) ((toBits32 v <<< 16) % 4294967296)
      ∧ toBits32 w % 65536 = toBits32 c := by
  have hcode : encode_opcode name = Except.ok c ∧ 0 ≤ c ∧ c < 65536 := by
    fin_cases htab <;> exact ⟨by decide, by norm_num, by norm_num⟩
  obtain ⟨hok, hc0, hc1⟩ := hcode
  exact ⟨wrap32 (c + wrap32 (v * 65536)), by simp [encode_instruction, hok],
    (encode_word_arith c v hc0 hc1 h1 h2).1, (encode_word_arith c v hc0 hc1 h1 h2).2⟩

/-- Witness for C1 at `jle` (code 8) and argument `-2`. -/
theorem encoder_packs_opcode_and_argument_witness :
    ∃ w, encode_instruction ⟨"jle", -2⟩ = Except.ok w
      ∧ toBits32 w = Nat.lor (toBits32 8) ((toBits32 (-2) <<< 16) % 4294967296)
      ∧ toBits32 w % 65536 = toBits32 8 :=
  encoder_packs_opcode_and_argument "jle" 8 (-2) (by decide) (by norm_num) (by norm_num)

/-- C2: a label-reference argument resolves to `table[name] - (address + 1)`
computed in the wrapping `i16` arithmetic of the source; whenever
`address + 1` and the displacement fit in `i16` this is exactly the target
address minus the address immediately after the referencing instruction.
On the example program of the spec (const 5 / :loop / dup / jle :loop) the
addresses are const=0, :loop=1, dup=1, jle=2 and the `jle` argument
resolves to `-2`. -/
theorem label_reference_relative_displacement :
    (∀ (labels : List (String × Int)) (address : Int) (name : String) (a : Int),
        hm_get labels name = some a →
        resolve_arg labels address (Argument.label name)
          = Except.ok (wrap16 (a - wrap16 (address + 1))))
    ∧ (∀ (labels : List (String × Int)) (address : Int) (name : String) (a : Int),
        hm_get labels name = some a →
        -32768 ≤ address + 1 → address + 1 ≤ 32767 →
        -32768 ≤ a - (address + 1) → a - (address + 1) ≤ 32767 →
        resolve_arg labels address (Argument.label name) = Except.ok (a - (address + 1)))
    ∧ lines_with_addresses (["const 5", ":loop", "dup", "jle :loop"].map parse_line)
        = [(Line.instruction "const" (Argument.integer 5), 0),
           (Line.label ":loop", 1),
           (Line.instruction "dup" Argument.none, 1),
           (Line.instruction "jle" (Argument.label ":loop"), 2)]
    ∧ resolve (["const 5", ":loop", "dup", "jle :loop"].map parse_line)
        = Except.ok [⟨"const", 5⟩, ⟨"dup", 0⟩, ⟨"jle", -2⟩] := by
  refine ⟨fun labels address name a h => by simp [resolve_arg, h],
    fun labels address name a h h1 h2 h3 h4 => ?_, by decide, by decide⟩
  simp only [resolve_arg, h, wrap16_eq_self (address + 1) h1 h2]
  rw [wrap16_eq_self (a - (address + 1)) h3 h4]

/-- Witness for C2: the `jle` at address 2 referencing `:loop` at address 1
resolves to `-2`. -/
theorem label_reference_relative_displacement_witness :
    resolve_arg [(":loop", 1)] 2 (Argument.label ":loop") = Except.ok (-2) := by
  have h := label_reference_relative_displacement.2.1 [(":loop", 1)] 2 ":loop" 1
    (by decide) (by norm_num) (by norm_num) (by norm_num) (by norm_num)
  simpa using h

/-- C3: address assignment pairs every line, in source order, with a counter
that starts at 0 and is bumped — in the wrapping `i16` arithmetic of the
source counter — only after instruction lines: line `i` receives the `i16`
wrap of the number of instruction lines strictly before it, which is that
number itself whenever the program has at most 32767 instruction lines, so
a label definition immediately preceding an instruction receives that
instruction's address and a label definition at end of file receives the
total instruction count. -/
theorem address_assignment_counter (lines : List Line) :
    (lines_with_addresses lines).map Prod.fst = lines
    ∧ (lines_with_addresses lines).length = lines.length
    ∧ (∀ (i : Nat) (h : i < (lines_with_addresses lines).length),
        ((lines_with_addresses lines).get ⟨i, h⟩).snd
          = wrap16 (count_instructions (lines.take i)))
    ∧ (count_instructions lines ≤ 32767 →
        ∀ (i : Nat) (h : i < (lines_with_addresses lines).length),
          ((lines_with_addresses lines).get ⟨i, h⟩).snd
            = (count_instructions (lines.take i) : Int)) := by
  have hsnd : ∀ (i : Nat) (h : i < (lines_with_addresses lines).length),
      ((lines_with_addresses lines).get ⟨i, h⟩).snd
        = wrap16 (count_instructions (lines.take i)) := by
    intro i h
    have hs := lwa_from_snd lines 0 i h
    by_cases hc : count_instructions (lines.take i) = 0
    · simp only [hc] at hs ⊢
      simpa [wrap16] using hs
    · simp only [hc, if_false] at hs
      simpa using hs
  refine ⟨lwa_from_fst lines 0, lwa_from_length lines 0, hsnd, fun hbound i h => ?_⟩
  rw [hsnd i h]
  have hle := count_instructions_take_le lines i
  exact wrap16_eq_self _ (by omega) (by exact_mod_cast le_trans hle hbound)

/-- Witness for C3: in `[:a, pop]` (1 instruction line, within the `i16`
bound) the label line at index 0 and the instruction line at index 1 both
receive address 0. -/
theorem address_assignment_counter_witness :
    ((lines_with_addresses [Line.label ":a", Line.instruction "pop" Argument.none]).get
        ⟨1, by decide⟩).snd
      = (count_instructions
          ([Line.label ":a", Line.instruction "pop" Argument.none].take 1) : Int) :=
  (address_assignment_counter [Line.label ":a", Line.instruction "pop" Argument.none]).2.2.2
    (by decide) 1 (by decide)

/-- C4: a successful compilation emits exactly one 32-bit word per
instruction line (label-definition lines contribute none), and the words
come from the resolved instructions taken in source order of their
instruction lines. -/
theorem emitted_word_count_and_order (source : List String) (ws : List Int)
    (h : compile source = Except.ok ws) :
    ws.length = count_instructions (source.map parse_line)
    ∧ ∃ instrs, resolve (source.map parse_line) = Except.ok instrs
        ∧ instrs.map Instruction.opcode = opcodes_in_order (source.map parse_line)
        ∧ encode_all instrs = Except.ok ws := by
  cases hres : resolve (source.map parse_line) with
  | error e => simp [compile, hres] at h
  | ok instrs =>
    simp only [compile, hres] at h
    have hops : instrs.map Instruction.opcode = opcodes_in_order (source.map parse_line) := by
      have ho := resolve_lines_opcodes
        (find_labels (lines_with_addresses (source.map parse_line)))
        (lines_with_addresses (source.map parse_line)) instrs hres
      rwa [lines_with_addresses, lwa_from_fst] at ho
    refine ⟨?_, instrs, rfl, hops, h⟩
    have hlen1 := encode_all_length instrs ws h
    have hlen2 : instrs.length = (opcodes_in_order (source.map parse_line)).length := by
      rw [← hops, List.length_map]
    rw [hlen1, hlen2, opcodes_in_order_length]

/-- Witness for C4 on the example program of the spec: 3 instruction lines, 3
words. -/
theorem emitted_word_count_and_order_witness :
    ([327680, 2, -131064] : List Int).length
      = count_instructions (["const 5", ":loop", "dup", "jle :loop"].map parse_line)
    ∧ ∃ instrs,
        resolve (["const 5", ":loop", "dup", "jle :loop"].map parse_line) = Except.ok instrs
        ∧ instrs.map Instruction.opcode
            = opcodes_in_order (["const 5", ":loop", "dup", "jle :loop"].map parse_line)
        ∧ encode_all instrs = Except.ok [327680, 2, -131064] :=
  emitted_word_count_and_order ["const 5", ":loop", "dup", "jle :loop"]
    [327680, 2, -131064] (by decide)

/-- C5: an instruction whose opcode is outside the fixed 9-name table makes
the whole compilation fail with the unrecognised-opcode error, and nothing
is handed to the binary writer (no partial best-effort output). -/
theorem unknown_opcode_aborts (source : List String) (instrs : List Instruction)
    (instr : Instruction) (hres : resolve (source.map parse_line) = Except.ok instrs)
    (hmem : instr ∈ instrs) (hbad : instr.opcode ∉ opcode_names) :
    (∃ n, compile source = Except.error (CompileError.unknownOpcode n))
    ∧ written_words source = [] := by
  obtain ⟨n, hn⟩ := encode_all_unknown instrs instr hmem hbad
  exact ⟨⟨n, by simp [compile, hres, hn]⟩, by simp [written_words, compile, hres, hn]⟩

/-- Witness for C5 at the one-line program `bogus`. -/
theorem unknown_opcode_aborts_witness :
    (∃ n, compile ["bogus"] = Except.error (CompileError.unknownOpcode n))
    ∧ written_words ["bogus"] = [] :=
  unknown_opcode_aborts ["bogus"] [⟨"bogus", 0⟩] ⟨"bogus", 0⟩
    (by decide) (by decide) (by decide)

/-- C6: a label reference with no matching key in the label table is a
fatal undefined-label failure: `resolve_arg` yields no resolved value, and
a program containing such a reference fails to compile with an
undefined-label error. -/
theorem undefined_label_aborts :
    (∀ (labels : List (String × Int)) (address : Int) (name : String),
        hm_get labels name = Option.none →
        resolve_arg labels address (Argument.label name)
          = Except.error (CompileError.undefinedLabel name))
    ∧ ∀ (source : List String) (p : Line × Int) (op name : String),
        p ∈ lines_with_addresses (source.map parse_line) →
        p.fst = Line.instruction op (Argument.label name) →
        hm_get (find_labels (lines_with_addresses (source.map parse_line))) name
          = Option.none →
        ∃ m, compile source = Except.error (CompileError.undefinedLabel m) := by
  constructor
  · intro labels address name h
    simp [resolve_arg, h]
  · intro source p op name hmem hp hnone
    have herr : resolve_line (find_labels (lines_with_addresses (source.map parse_line))) p
        = Except.error (CompileError.undefinedLabel name) := by
      obtain ⟨line, address⟩ := p
      simp only [Prod.fst] at hp
      subst hp
      simp [resolve_line, resolve_arg, hnone]
    obtain ⟨e2, he2⟩ := resolve_lines_error_of_mem _ _ p _ hmem herr
    obtain ⟨m, rfl⟩ := resolve_lines_error_form _ _ _ he2
    exact ⟨m, by simp [compile, resolve, he2]⟩

/-- Witness for C6 at the one-line program `jmp :missing`. -/
theorem undefined_label_aborts_witness :
    ∃ m, compile ["jmp :missing"] = Except.error (CompileError.undefinedLabel m) :=
  undefined_label_aborts.2 ["jmp :missing"]
    (Line.instruction "jmp" (Argument.label ":missing"), 0) "jmp" ":missing"
    (by decide) (by decide) (by decide)

/-- C7: a missing second token yields the absent argument, which resolves
to 0; a second token that neither starts with `:` nor parses as a signed
16-bit integer is silently coerced to the absent argument (resolving to 0,
no failure); a literal argument resolves to its value unchanged. -/
theorem argument_defaults_and_literals :
    parse_arg Option.none = Argument.none
    ∧ (∀ (labels : List (String × Int)) (address : Int),
        resolve_arg labels address Argument.none = Except.ok 0)
    ∧ (∀ s : String, starts_with_colon s = false → parse_i16 s = Option.none →
        parse_arg (some s) = Argument.none)
    ∧ (∀ (labels : List (String × Int)) (address v : Int),
        resolve_arg labels address (Argument.integer v) = Except.ok v) :=
  ⟨rfl, fun _ _ => rfl, fun s h1 h2 => by simp [parse_arg, h1, h2], fun _ _ _ => rfl⟩

/-- Witness for C7 at the malformed token `1x`. -/
theorem argument_defaults_and_literals_witness :
    parse_arg (some "1x") = Argument.none :=
  argument_defaults_and_literals.2.2.1 "1x" (by decide) (by decide)

/-- C8: the label table maps each name to the address of its LAST
definition: a later duplicate definition silently overwrites an earlier
one, and no error is ever raised for the duplicate (`find_labels` is
total). -/
theorem duplicate_label_last_wins :
    (∀ (lwa : List (Line × Int)) (name : String),
        hm_get (find_labels lwa) name = last_label_address lwa name)
    ∧ ∀ (pre mid post : List (Line × Int)) (name : String) (a1 a2 : Int),
        last_label_address mid name = Option.none →
        last_label_address post name = Option.none →
        hm_get (find_labels
            (pre ++ ((Line.label name, a1) :: (mid ++ ((Line.label name, a2) :: post)))))
            name
          = some a2 := by
  refine ⟨hm_get_find_labels, ?_⟩
  intro pre mid post name a1 a2 hmid hpost
  rw [hm_get_find_labels, lla_append]
  have h2 : last_label_address ((Line.label name, a2) :: post) name = some a2 := by
    simp [last_label_address, hpost]
  have h1 : last_label_address (mid ++ ((Line.label name, a2) :: post)) name = some a2 := by
    rw [lla_append, h2]
  simp [last_label_address, h1]

/-- Witness for C8: two definitions of `:a` at addresses 0 and 1; lookup
returns 1. -/
theorem duplicate_label_last_wins_witness :
    hm_get (find_labels
        ([] ++ ((Line.label ":a", 0) :: ([] ++ ((Line.label ":a", 1) :: []))))) ":a"
      = some 1 :=
  duplicate_label_last_wins.2 [] [] [] ":a" 0 1 (by decide) (by decide)

theorem splitSpaces_eq (cs : List Char) :
    splitSpaces cs
      = cs.takeWhile (fun c => c != ' ')
        :: (if ' ' ∈ cs then
              splitSpaces (cs.drop ((cs.takeWhile (fun c => c != ' ')).length + 1))
            else []) := by
  induction cs with
  | nil => simp [splitSpaces]
  | cons c rest ih =>
    by_cases hc : c = ' '
    · subst hc
      simp [splitSpaces, List.takeWhile_cons]
    · have hstep : splitSpaces (c :: rest)
          = match splitSpaces rest with
            | [] => [[c]]
            | t :: ts => (c :: t) :: ts := by
        simp [splitSpaces, hc]
      rw [hstep, ih]
      simp only [List.takeWhile_cons, hc, bne_iff_ne, ne_eq, not_false_eq_true, if_true,
        List.mem_cons, List.length_cons, List.drop_succ_cons]
      by_cases hm : ' ' ∈ rest
      · simp [hm, hc]
      · simp [hm, hc]
        intro h
        exact absurd h.symm hc

/-- C9 counterexample: on the line `const 1 2` the classifier keeps only
the segment between the first and second space as the argument token
(yielding the literal 1); the classifier described by the claim, which takes the entire
remainder `1 2` as the argument token, yields the absent argument instead,
so the two disagree. -/
theorem classifier_remainder_counterexample :
    parse_line "const 1 2" = Line.instruction "const" (Argument.integer 1)
    ∧ parse_line_claim "const 1 2" = Line.instruction "const" Argument.none
    ∧ parse_line "const 1 2" ≠ parse_line_claim "const 1 2" := by decide

/-- C9 (amended): a line starting with `:` is a label definition whose
stored name is the full line, sigil included, and a label-reference token
likewise keeps the sigil; any other line is split on EVERY space
character, the first segment being the opcode name and the segment between
the first and second space (not the entire remainder) being the single
argument token, further segments being ignored. -/
theorem classifier_splits_on_every_space (line : String) :
    (starts_with_colon line = true → parse_line line = Line.label line)
    ∧ (∀ s : String, starts_with_colon s = true → parse_arg (some s) = Argument.label s)
    ∧ (starts_with_colon line = false →
        parse_line line
          = Line.instruction (String.mk (line.data.takeWhile (fun c => c != ' ')))
              (parse_arg
                (if ' ' ∈ line.data then
                  some (String.mk
                    ((line.data.drop
                        ((line.data.takeWhile (fun c => c != ' ')).length + 1)).takeWhile
                      (fun c => c != ' ')))
                 else Option.none))) := by
  refine ⟨fun h => by simp [parse_line, h], fun s h => by simp [parse_arg, h], fun h => ?_⟩
  simp only [parse_line, h, Bool.false_eq_true, if_false]
  rw [splitSpaces_eq]
  by_cases hm : ' ' ∈ line.data
  · simp only [hm, if_true]
    rw [splitSpaces_eq]
    simp
  · simp [hm]

/-- Witness for C9 (amended) at the line `const 1 2`. -/
theorem classifier_splits_on_every_space_witness :
    parse_line "const 1 2" = Line.instruction "const" (Argument.integer 1) := by
  rw [(classifier_splits_on_every_space "const 1 2").2.2 (by decide)]
  decide

/-- C10 (amended): the empty line is classified as an instruction whose
opcode is the empty string with the absent argument; a program containing
a blank line therefore never compiles: resolution either fails, or the
encoder is reached and the compilation fails with the unrecognised-opcode
error. -/
theorem blank_line_empty_opcode (source : List String) (hmem : "" ∈ source) :
    parse_line "" = Line.instruction "" Argument.none
    ∧ encode_opcode "" = Except.error (CompileError.unknownOpcode "")
    ∧ (∃ e, compile source = Except.error e)
    ∧ ∀ instrs, resolve (source.map parse_line) = Except.ok instrs →
        ∃ n, compile source = Except.error (CompileError.unknownOpcode n) := by
  have h1 : parse_line "" = Line.instruction "" Argument.none := by decide
  have h2 : encode_opcode "" = Except.error (CompileError.unknownOpcode "") := by decide
  have hline : Line.instruction "" Argument.none ∈ source.map parse_line := by
    rw [← h1]
    exact List.mem_map_of_mem parse_line hmem
  have hok : ∀ instrs, resolve (source.map parse_line) = Except.ok instrs →
      ∃ n, compile source = Except.error (CompileError.unknownOpcode n) := by
    intro instrs hres
    have hops := resolve_lines_opcodes
      (find_labels (lines_with_addresses (source.map parse_line)))
      (lines_with_addresses (source.map parse_line)) instrs hres
    rw [lines_with_addresses, lwa_from_fst] at hops
    have hmem2 : "" ∈ opcodes_in_order (source.map parse_line) :=
      opcodes_in_order_mem _ "" Argument.none hline
    rw [← hops] at hmem2
    obtain ⟨instr, hinstr, hop⟩ := List.mem_map.mp hmem2
    have hbad : instr.opcode ∉ opcode_names := by rw [hop]; decide
    obtain ⟨n, hn⟩ := encode_all_unknown instrs instr hinstr hbad
    exact ⟨n, by simp [compile, hres, hn]⟩
  refine ⟨h1, h2, ?_, hok⟩
  cases hres : resolve (source.map parse_line) with
  | error e => exact ⟨e, by simp [compile, hres]⟩
  | ok instrs =>
    obtain ⟨n, hn⟩ := hok instrs hres
    exact ⟨_, hn⟩

/-- Witness for C10 (amended) at the one-line blank program. -/
theorem blank_line_empty_opcode_witness :
    parse_line "" = Line.instruction "" Argument.none
    ∧ encode_opcode "" = Except.error (CompileError.unknownOpcode "")
    ∧ (∃ e, compile [""] = Except.error e)
    ∧ ∀ instrs, resolve ([""].map parse_line) = Except.ok instrs →
        ∃ n, compile [""] = Except.error (CompileError.unknownOpcode n) :=
  blank_line_empty_opcode [""] (by decide)

/-- C10 counterexample: the program `jmp :missing` / blank line contains a
blank line, yet compilation fails with the undefined-label error, not the
unrecognised-opcode error — the blank line never reaches the encoder
because resolution aborts first. -/
theorem blank_line_counterexample :
    ("" ∈ ["jmp :missing", ""])
    ∧ compile ["jmp :missing", ""] = Except.error (CompileError.undefinedLabel ":missing")
    ∧ ∀ n, compile ["jmp :missing", ""] ≠ Except.error (CompileError.unknownOpcode n) := by
  refine ⟨by decide, by decide, fun n h => ?_⟩
  rw [(by decide :
    compile ["jmp :missing", ""] = Except.error (CompileError.undefinedLabel ":missing"))] at h
  simp at h

end Quasm
